import Mathlib

/-!
Verification of the industrial-workforce-scheduler core against its
specification.  The definitions below are a shallow embedding of the Python
source:

* `Employee`            — `src/models/entities.py`, `Employee` dataclass
* `getShifts`           — `src/utils/helpers.py` `get_shifts` /
                          `src/simulator/workforce_simulator.py`
                          `WorkforceSimulator._get_shifts`
* `breaksFor`, `addBreaks` — `WorkforceSimulator.add_breaks`
* `fallbackSchedule`, `applyFallback` —
                          `WorkforceSimulator._generate_fallback_schedule`
* `extractSchedule`, `generateSchedule` —
                          `WorkforceSimulator.generate_schedule`
* `dailyHoursRule`      — the formulated daily-cap constraint
                          (`daily_hours_rule`), lines 51-54

Python integers are modelled by `Int` wherever a schedule entry (a period
index) is stored, and by `Nat` for loop counters, list indices and the
horizon length.
-/

/-- Employee entity from `src/models/entities.py`.  The float-valued fields
(`max_hours`, `hours_worked`) and the task back-reference `current_task` are
never read or written by the scheduling algorithm and are omitted; `schedule`
and `breaks_taken` are the mutable fields the scheduler writes. -/
structure Employee where
  id : Int
  skills : List String
  breaksTaken : List Int
  schedule : List Int
deriving DecidableEq, Inhabited, Repr

/-- Loop of `get_shifts` (`src/utils/helpers.py` lines 9-21): `cur` is the
`current_shift` accumulator and `last` its last element (`current_shift[-1]`,
maintained alongside because `cur` only ever grows at its right end). -/
def getShiftsAux (cur : List Int) (last : Int) : List Int → List (List Int)
  | [] => [cur]
  | hour :: rest =>
    if hour = last + 1 then
      getShiftsAux (cur ++ [hour]) hour rest
    else
      cur :: getShiftsAux [hour] hour rest

/-- Translation of `get_shifts` from `src/utils/helpers.py` (identical to
`WorkforceSimulator._get_shifts`): group consecutive hours into shifts.
An empty schedule returns `[]`; otherwise the scan starts with
`current_shift = [schedule[0]]`. -/
def getShifts : List Int → List (List Int)
  | [] => []
  | h :: t => getShiftsAux [h] h t

/-- A run is contiguous when each element is its predecessor plus one. -/
def Contiguous (r : List Int) : Prop :=
  List.Chain' (fun a b => b = a + 1) r

instance : DecidablePred Contiguous := fun r =>
  inferInstanceAs (Decidable (List.Chain' _ r))

/-- Inner loop of `WorkforceSimulator.add_breaks` (lines 122-126): for each
shift of the segmented schedule with `len(shift) >= 6`, append
`shift[len(shift) // 2]` to the break list; shorter shifts are skipped. -/
def collectBreaks : List (List Int) → List Int
  | [] => []
  | shift :: rest =>
    if 6 ≤ shift.length then
      shift.getD (shift.length / 2) 0 :: collectBreaks rest
    else
      collectBreaks rest

/-- The break list `add_breaks` computes for one schedule. -/
def breaksFor (schedule : List Int) : List Int :=
  collectBreaks (getShifts schedule)

/-- Body of the per-employee loop of `add_breaks` (lines 118-126):
`employee.breaks_taken` is reset to `[]` and rebuilt from the segmented
schedule; the schedule itself is not written. -/
def addBreaksEmp (emp : Employee) : Employee :=
  { emp with breaksTaken := breaksFor emp.schedule }

/-- Translation of `WorkforceSimulator.add_breaks` over the whole employee list. -/
def addBreaks (employees : List Employee) : List Employee :=
  employees.map addBreaksEmp

/-- Outcome of the external backend call in
`WorkforceSimulator.generate_schedule`, as seen by the surrounding control
flow (lines 68-89): `success a` is solver status ok with optimal termination
and `a e p` the truth of the binary variable `working[e,p]` (the `> 0.5`
thresholding of the relaxed value); `failure` is any non-ok or non-optimal
outcome (line 83); `raisedBefore` is an exception thrown before any schedule
is written; `raisedDuring a k` is an exception thrown during the extraction
loop after the first `k` employees' schedules were already written (the
`except` handler then runs the fallback over the whole list either way). -/
inductive BackendResult where
  | success (a : Nat → Nat → Bool)
  | failure
  | raisedBefore
  | raisedDuring (a : Nat → Nat → Bool) (k : Nat)

/-- Solution extraction for one employee (lines 76-81): the periods `p` in
`range(24 * horizon_days)` whose decision variable is true, in order. -/
def extractSchedule (a : Nat → Nat → Bool) (horizonDays e : Nat) : List Int :=
  ((List.range (24 * horizonDays)).filter (fun p => a e p)).map
    (fun (p : Nat) => (p : Int))

/-- Extraction loop over employees (lines 76-81), indexed from `e`. -/
def extractAll (a : Nat → Nat → Bool) (horizonDays : Nat) :
    Nat → List Employee → List Employee
  | _, [] => []
  | e, emp :: rest =>
    { emp with schedule := extractSchedule a horizonDays e }
      :: extractAll a horizonDays (e + 1) rest

/-- Extraction loop interrupted by an exception after writing the schedules
of employees with index below `k`; later employees keep their old state. -/
def extractUpTo (a : Nat → Nat → Bool) (horizonDays k : Nat) :
    Nat → List Employee → List Employee
  | _, [] => []
  | e, emp :: rest =>
    (if e < k then { emp with schedule := extractSchedule a horizonDays e } else emp)
      :: extractUpTo a horizonDays k (e + 1) rest

/-- The local `shifts` list of `_generate_fallback_schedule` (lines 95-99). -/
def fallbackShifts : List (Nat × Nat) := [(0, 8), (8, 16), (16, 24)]

/-- Fallback schedule for employee index `e`
(`_generate_fallback_schedule`, lines 101-111): template
`shifts[e % len(shifts)]`, applied on every even day of the horizon. -/
def fallbackSchedule (horizonDays e : Nat) : List Int :=
  let sh := fallbackShifts.getD (e % fallbackShifts.length) (0, 0)
  (List.range horizonDays).flatMap (fun day =>
    if day % 2 = 0 then
      (List.range' sh.1 (sh.2 - sh.1)).map (fun hour => ((day * 24 + hour : Nat) : Int))
    else [])

/-- Per-employee loop of `_generate_fallback_schedule`, indexed from `e`. -/
def applyFallbackFrom (horizonDays : Nat) : Nat → List Employee → List Employee
  | _, [] => []
  | e, emp :: rest =>
    { emp with schedule := fallbackSchedule horizonDays e }
      :: applyFallbackFrom horizonDays (e + 1) rest

/-- Translation of `WorkforceSimulator._generate_fallback_schedule`. -/
def applyFallback (horizonDays : Nat) (employees : List Employee) : List Employee :=
  applyFallbackFrom horizonDays 0 employees

/-- Translation of `WorkforceSimulator.generate_schedule`: on an ok/optimal solve, extract
every employee's schedule from the assignment; on any other solver outcome
or on an exception (including one thrown mid-extraction), run the fallback
scheduler over the whole employee list. -/
def generateSchedule (result : BackendResult) (horizonDays : Nat)
    (employees : List Employee) : List Employee :=
  match result with
  | BackendResult.success a => extractAll a horizonDays 0 employees
  | BackendResult.failure => applyFallback horizonDays employees
  | BackendResult.raisedBefore => applyFallback horizonDays employees
  | BackendResult.raisedDuring a k =>
      applyFallback horizonDays (extractUpTo a horizonDays k 0 employees)

/-- Constraint `daily_hours_rule` (lines 51-54): the formulated model requires, for
employee `e` and day `d`, that the binary variables over
`range(day_start, day_start + 24)` sum to at most 8; as the variables are
boolean, the sum is the count of true entries. -/
def dailyHoursRule (a : Nat → Nat → Bool) (e d : Nat) : Prop :=
  ((List.range' (d * 24) 24).filter (fun p => a e p)).length ≤ 8

/-- Number of schedule entries falling on day `d`. -/
def dailyCount (schedule : List Int) (d : Nat) : Nat :=
  (schedule.filter (fun p => (d * 24 : Int) ≤ p ∧ p < ((d : Int) + 1) * 24)).length

/-- One day's contribution to the fallback schedule: template `[s, t)` on
even days, nothing on odd days. -/
def fbBody (s t day : Nat) : List Int :=
  if day % 2 = 0 then
    (List.range' s (t - s)).map (fun hour => ((day * 24 + hour : Nat) : Int))
  else []

/-- The four employees of `main.py` (one per row of `SKILLS_MATRIX`),
freshly constructed with empty schedules and break lists. -/
def scenarioEmployees : List Employee :=
  [⟨0, ["operator", "maintenance"], [], []⟩,
   ⟨1, ["operator"], [], []⟩,
   ⟨2, ["maintenance", "quality"], [], []⟩,
   ⟨3, ["operator", "quality"], [], []⟩]

/-- The scenario of spec §8: backend unavailable, 7-day horizon, then break
assignment. -/
def scenarioOutcome : List Employee :=
  addBreaks (generateSchedule BackendResult.failure 7 scenarioEmployees)

theorem getShiftsAux_flatten (t : List Int) :
    ∀ (cur : List Int) (last : Int), (getShiftsAux cur last t).flatten = cur ++ t := by
  induction t with
  | nil => intro cur last; simp [getShiftsAux]
  | cons hour rest ih =>
    intro cur last
    by_cases h : hour = last + 1
    · simp [getShiftsAux, h, ih]
    · simp [getShiftsAux, h, ih]

theorem getShifts_flatten (l : List Int) : (getShifts l).flatten = l := by
  cases l with
  | nil => rfl
  | cons h t => simp [getShifts, getShiftsAux_flatten]

theorem getShiftsAux_ne_nil (t : List Int) :
    ∀ (cur : List Int) (last : Int), cur ≠ [] →
      ∀ r ∈ getShiftsAux cur last t, r ≠ [] := by
  induction t with
  | nil =>
    intro cur last hcur r hr
    simp [getShiftsAux] at hr
    exact hr ▸ hcur
  | cons hour rest ih =>
    intro cur last hcur r hr
    by_cases h : hour = last + 1
    · rw [getShiftsAux, if_pos h] at hr
      exact ih _ _ (by simp) r hr
    · rw [getShiftsAux, if_neg h] at hr
      rcases List.mem_cons.mp hr with h1 | h2
      · exact h1 ▸ hcur
      · exact ih _ _ (by simp) r h2

theorem getShifts_ne_nil (l : List Int) : ∀ r ∈ getShifts l, r ≠ [] := by
  cases l with
  | nil => intro r hr; simp [getShifts] at hr
  | cons h t => exact getShiftsAux_ne_nil t [h] h (by simp)

theorem getShiftsAux_contiguous (t : List Int) :
    ∀ (cur : List Int) (last : Int), Contiguous cur → cur.getLast? = some last →
      ∀ r ∈ getShiftsAux cur last t, Contiguous r := by
  induction t with
  | nil =>
    intro cur last hc _ r hr
    simp [getShiftsAux] at hr
    exact hr ▸ hc
  | cons hour rest ih =>
    intro cur last hc hlast r hr
    by_cases h : hour = last + 1
    · rw [getShiftsAux, if_pos h] at hr
      refine ih _ _ ?_ (List.getLast?_concat cur) r hr
      exact List.chain'_append.mpr ⟨hc, List.chain'_singleton hour, by
        intro x hx y hy
        simp at hy
        rw [hlast] at hx
        simp at hx
        omega⟩
    · rw [getShiftsAux, if_neg h] at hr
      rcases List.mem_cons.mp hr with h1 | h2
      · exact h1 ▸ hc
      · exact ih [hour] hour (List.chain'_singleton hour) rfl r h2

theorem getShifts_contiguous (l : List Int) : ∀ r ∈ getShifts l, Contiguous r := by
  cases l with
  | nil => intro r hr; simp [getShifts] at hr
  | cons h t =>
    exact getShiftsAux_contiguous t [h] h (List.chain'_singleton h) rfl

theorem getShiftsAux_head (t : List Int) :
    ∀ (cur : List Int) (last : Int) (x : Int), cur.head? = some x →
      (getShiftsAux cur last t).head?.bind List.head? = some x := by
  induction t with
  | nil => intro cur last x hx; simp [getShiftsAux, hx]
  | cons hour rest ih =>
    intro cur last x hx
    by_cases h : hour = last + 1
    · rw [getShiftsAux, if_pos h]
      refine ih _ _ _ ?_
      cases cur with
      | nil => simp at hx
      | cons c cs => simpa using hx
    · rw [getShiftsAux, if_neg h]
      simp [hx]

theorem getShiftsAux_boundaries (t : List Int) :
    ∀ (cur : List Int) (last : Int), cur.getLast? = some last →
      List.Chain' (fun r₁ r₂ => ∀ x ∈ r₁.getLast?, ∀ y ∈ r₂.head?, y ≠ x + 1)
        (getShiftsAux cur last t) := by
  induction t with
  | nil => intro cur last _; simp [getShiftsAux]
  | cons hour rest ih =>
    intro cur last hlast
    by_cases h : hour = last + 1
    · rw [getShiftsAux, if_pos h]
      exact ih _ _ (List.getLast?_concat cur)
    · rw [getShiftsAux, if_neg h]
      refine List.chain'_cons'.mpr ⟨?_, ih [hour] hour rfl⟩
      intro r hr x hx y hy
      have hhead := getShiftsAux_head rest [hour] hour hour rfl
      cases hout : getShiftsAux [hour] hour rest with
      | nil => rw [hout] at hr; simp at hr
      | cons r0 rs =>
        rw [hout] at hr hhead
        simp at hr hhead
        rw [hlast] at hx
        rw [hr] at hhead
        rw [hhead] at hy
        simp at hx hy
        rw [← hy, ← hx]
        exact fun hc => h hc

theorem getShifts_boundaries (l : List Int) :
    List.Chain' (fun r₁ r₂ => ∀ x ∈ r₁.getLast?, ∀ y ∈ r₂.head?, y ≠ x + 1)
      (getShifts l) := by
  cases l with
  | nil => simp [getShifts]
  | cons h t => exact getShiftsAux_boundaries t [h] h rfl

theorem chain'_imp_mem {α : Type} {R S : α → α → Prop} {P : α → Prop} :
    ∀ {l : List α}, List.Chain' R l → (∀ a ∈ l, P a) →
      (∀ a b, P a → P b → R a b → S a b) → List.Chain' S l := by
  intro l
  induction l with
  | nil => intro _ _ _; simp
  | cons x xs ih =>
    intro hc hp himp
    obtain ⟨hhead, htail⟩ := List.chain'_cons'.mp hc
    refine List.chain'_cons'.mpr ⟨?_, ih htail (fun a ha => hp a (List.mem_cons_of_mem x ha)) himp⟩
    intro y hy
    exact himp x y (hp x (List.mem_cons_self x xs))
      (hp y (List.mem_cons_of_mem x (List.mem_of_mem_head? hy))) (hhead y hy)

theorem pairwise_imp_mem {α : Type} {R S : α → α → Prop} {P : α → Prop} :
    ∀ {l : List α}, List.Pairwise R l → (∀ a ∈ l, P a) →
      (∀ a b, P a → P b → R a b → S a b) → List.Pairwise S l := by
  intro l
  induction l with
  | nil => intro _ _ _; simp
  | cons x xs ih =>
    intro hc hp himp
    obtain ⟨hhead, htail⟩ := List.pairwise_cons.mp hc
    refine List.pairwise_cons.mpr
      ⟨?_, ih htail (fun a ha => hp a (List.mem_cons_of_mem x ha)) himp⟩
    intro y hy
    exact himp x y (hp x (List.mem_cons_self x xs))
      (hp y (List.mem_cons_of_mem x hy)) (hhead y hy)

theorem getShifts_maximal (l : List Int) :
    List.Chain' (fun r₁ r₂ => ¬ Contiguous (r₁ ++ r₂)) (getShifts l) := by
  refine chain'_imp_mem (P := fun r => r ≠ [] ∧ Contiguous r) (getShifts_boundaries l)
    (fun r hr => ⟨getShifts_ne_nil l r hr, getShifts_contiguous l r hr⟩) ?_
  rintro r₁ r₂ ⟨hne₁, -⟩ ⟨hne₂, -⟩ hbd hc
  obtain ⟨-, -, hmid⟩ := List.chain'_append.mp hc
  have hx := List.getLast?_eq_getLast r₁ hne₁
  have hy := List.head?_eq_head hne₂
  exact hbd _ hx _ hy (hmid _ hx _ hy)

/-- C1: for every sorted input, `getShifts` returns runs whose concatenation
reproduces the input exactly, each run is internally contiguous (each element
is its predecessor plus one), no two adjacent runs can be merged into one
contiguous run, and the empty input yields the empty run list. -/
theorem getShifts_segmentation_correct (l : List Int)
    (_hs : List.Pairwise (· < ·) l) :
    (getShifts l).flatten = l ∧
    (∀ r ∈ getShifts l, Contiguous r) ∧
    List.Chain' (fun r₁ r₂ => ¬ Contiguous (r₁ ++ r₂)) (getShifts l) ∧
    getShifts ([] : List Int) = [] :=
  ⟨getShifts_flatten l, getShifts_contiguous l, getShifts_maximal l, rfl⟩

theorem getShifts_segmentation_correct_witness :
    List.Pairwise (· < ·) ([1, 2, 3, 7, 8] : List Int) ∧
    ((getShifts [1, 2, 3, 7, 8]).flatten = [1, 2, 3, 7, 8] ∧
     (∀ r ∈ getShifts ([1, 2, 3, 7, 8] : List Int), Contiguous r) ∧
     List.Chain' (fun r₁ r₂ => ¬ Contiguous (r₁ ++ r₂))
       (getShifts ([1, 2, 3, 7, 8] : List Int)) ∧
     getShifts ([] : List Int) = []) :=
  ⟨by decide, getShifts_segmentation_correct [1, 2, 3, 7, 8] (by decide)⟩


theorem collectBreaks_eq (L : List (List Int)) :
    collectBreaks L
      = (L.filter (fun r => 6 ≤ r.length)).map (fun r => r.getD (r.length / 2) 0) := by
  induction L with
  | nil => rfl
  | cons r rs ih =>
    by_cases h : 6 ≤ r.length
    · rw [collectBreaks, if_pos h,
          List.filter_cons_of_pos (by simpa using h), List.map_cons, ih]
    · rw [collectBreaks, if_neg h,
          List.filter_cons_of_neg (by simpa using h), ih]

theorem breaksFor_eq (s : List Int) :
    breaksFor s = ((getShifts s).filter (fun r => 6 ≤ r.length)).map
      (fun r => r.getD (r.length / 2) 0) :=
  collectBreaks_eq (getShifts s)

theorem mid_mem (r : List Int) (h : 0 < r.length) :
    r.getD (r.length / 2) 0 ∈ r := by
  have hlt : r.length / 2 < r.length := Nat.div_lt_self h (by omega)
  rw [List.getD_eq_getElem r 0 hlt]
  exact List.getElem_mem hlt

/-- C2: after `addBreaks`, every run of length at least 6 of the segmented
schedule contributes exactly one break, placed at `run[len run / 2]`; shorter
runs contribute none (the break count equals the count of long runs, each
long run's midpoint is recorded, and every recorded break is the midpoint of
some long run). -/
theorem addBreaks_one_break_per_long_run (emps : List Employee) :
    ∀ emp ∈ addBreaks emps,
      (∀ run ∈ getShifts emp.schedule, 6 ≤ run.length →
        run.getD (run.length / 2) 0 ∈ emp.breaksTaken) ∧
      emp.breaksTaken.length
        = ((getShifts emp.schedule).filter (fun r => 6 ≤ r.length)).length ∧
      (∀ b ∈ emp.breaksTaken, ∃ run ∈ getShifts emp.schedule,
        6 ≤ run.length ∧ b = run.getD (run.length / 2) 0) := by
  intro emp hemp
  obtain ⟨e, -, he⟩ := List.mem_map.mp hemp
  have hsched : emp.schedule = e.schedule := by rw [← he]; rfl
  have hbr : emp.breaksTaken = breaksFor e.schedule := by rw [← he]; rfl
  rw [hsched, hbr, breaksFor_eq]
  refine ⟨?_, by rw [List.length_map], ?_⟩
  · intro run hrun hlen
    exact List.mem_map.mpr ⟨run, List.mem_filter.mpr ⟨hrun, by simpa using hlen⟩, rfl⟩
  · intro b hb
    obtain ⟨run, hrun, hmid⟩ := List.mem_map.mp hb
    obtain ⟨hrun', hlen⟩ := List.mem_filter.mp hrun
    exact ⟨run, hrun', by simpa using hlen, hmid.symm⟩

theorem addBreaks_one_break_per_long_run_witness :
    (∀ run ∈ getShifts (Employee.schedule ⟨0, [], [3], [0, 1, 2, 3, 4, 5, 10]⟩),
      6 ≤ run.length →
        run.getD (run.length / 2) 0
          ∈ Employee.breaksTaken ⟨0, [], [3], [0, 1, 2, 3, 4, 5, 10]⟩) ∧
    (Employee.breaksTaken ⟨0, [], [3], [0, 1, 2, 3, 4, 5, 10]⟩).length
      = ((getShifts (Employee.schedule ⟨0, [], [3], [0, 1, 2, 3, 4, 5, 10]⟩)).filter
          (fun r => 6 ≤ r.length)).length ∧
    (∀ b ∈ Employee.breaksTaken ⟨0, [], [3], [0, 1, 2, 3, 4, 5, 10]⟩,
      ∃ run ∈ getShifts (Employee.schedule ⟨0, [], [3], [0, 1, 2, 3, 4, 5, 10]⟩),
        6 ≤ run.length ∧ b = run.getD (run.length / 2) 0) :=
  addBreaks_one_break_per_long_run [⟨0, [], [99], [0, 1, 2, 3, 4, 5, 10]⟩]
    ⟨0, [], [3], [0, 1, 2, 3, 4, 5, 10]⟩ (by decide)

/-- C9: `addBreaks` never modifies any employee's schedule, and every
recorded break index is an element of that employee's schedule. -/
theorem addBreaks_frame (emps : List Employee) :
    (addBreaks emps).map Employee.schedule = emps.map Employee.schedule ∧
    ∀ emp ∈ addBreaks emps, ∀ b ∈ emp.breaksTaken, b ∈ emp.schedule := by
  constructor
  · rw [addBreaks, List.map_map]; rfl
  · intro emp hemp b hb
    obtain ⟨e, -, he⟩ := List.mem_map.mp hemp
    have hsched : emp.schedule = e.schedule := by rw [← he]; rfl
    have hbr : emp.breaksTaken = breaksFor e.schedule := by rw [← he]; rfl
    rw [hbr, breaksFor_eq] at hb
    obtain ⟨run, hrun, hmid⟩ := List.mem_map.mp hb
    obtain ⟨hrun', hlen⟩ := List.mem_filter.mp hrun
    have hmem : b ∈ run := by
      rw [← hmid]
      exact mid_mem run (by simp at hlen; omega)
    rw [hsched, ← getShifts_flatten e.schedule]
    exact List.mem_flatten.mpr ⟨run, hrun', hmem⟩

theorem addBreaks_frame_witness :
    (3 : Int) ∈ Employee.schedule ⟨0, [], [3], [0, 1, 2, 3, 4, 5, 10]⟩ :=
  (addBreaks_frame [⟨0, [], [99], [0, 1, 2, 3, 4, 5, 10]⟩]).2
    ⟨0, [], [3], [0, 1, 2, 3, 4, 5, 10]⟩ (by decide) 3 (by decide)

theorem contiguous_getD (r : List Int) :
    Contiguous r → ∀ i, i < r.length → r.getD i 0 = r.headD 0 + i := by
  induction r with
  | nil => intro _ i hi; simp at hi
  | cons a t ih =>
    intro hc i hi
    cases i with
    | zero => simp
    | succ j =>
      have ht : Contiguous t := (List.chain'_cons'.mp hc).2
      have hj : j < t.length := by simpa using hi
      have hIH := ih ht j hj
      cases t with
      | nil => simp at hj
      | cons b t2 =>
        have hb : b = a + 1 := by
          have := (List.chain'_cons'.mp hc).1
          simpa using this b rfl
        rw [List.getD_cons_succ, hIH]
        simp [hb]
        ring

/-- C3 counterexample: the schedule `[0,1,2,3,4,5]` forms a single run of
even length 6; `add_breaks` records the break at element index `6 / 2 = 3`
(value 3), not at the lower-middle index `6 / 2 - 1 = 2` (value 2). -/
theorem addBreaks_lower_middle_cex :
    getShifts [0, 1, 2, 3, 4, 5] = [[0, 1, 2, 3, 4, 5]] ∧
    (addBreaks [⟨0, [], [], [0, 1, 2, 3, 4, 5]⟩]).map Employee.breaksTaken = [[3]] ∧
    ([0, 1, 2, 3, 4, 5] : List Int).getD (6 / 2 - 1) 0 = 2 ∧
    ¬ (3 : Int) = 2 := by decide

/-- C3 amended: for every run of even length at least 6, the single break
recorded by `addBreaks` lies at index `len run / 2`, the upper of the run's
two central positions — its value is one more than the element at the
lower-middle index `len run / 2 - 1`. -/
theorem addBreaks_break_at_upper_middle (emps : List Employee) :
    ∀ emp ∈ addBreaks emps, ∀ run ∈ getShifts emp.schedule,
      run.length % 2 = 0 → 6 ≤ run.length →
        run.getD (run.length / 2) 0 ∈ emp.breaksTaken ∧
        run.getD (run.length / 2) 0 = run.getD (run.length / 2 - 1) 0 + 1 := by
  intro emp hemp run hrun heven hlen
  obtain ⟨e, -, he⟩ := List.mem_map.mp hemp
  have hsched : emp.schedule = e.schedule := by rw [← he]; rfl
  have hbr : emp.breaksTaken = breaksFor e.schedule := by rw [← he]; rfl
  rw [hsched] at hrun
  constructor
  · rw [hbr, breaksFor_eq]
    exact List.mem_map.mpr ⟨run, List.mem_filter.mpr ⟨hrun, by simpa using hlen⟩, rfl⟩
  · have hc : Contiguous run := getShifts_contiguous e.schedule run hrun
    rw [contiguous_getD run hc _ (Nat.div_lt_self (by omega) (by omega)),
        contiguous_getD run hc _ (by omega)]
    have h1 : 1 ≤ run.length / 2 := by omega
    push_cast [h1]
    ring

theorem addBreaks_break_at_upper_middle_witness :
    ([0, 1, 2, 3, 4, 5] : List Int).getD (([0, 1, 2, 3, 4, 5] : List Int).length / 2) 0
      ∈ Employee.breaksTaken ⟨0, [], [3], [0, 1, 2, 3, 4, 5]⟩ ∧
    ([0, 1, 2, 3, 4, 5] : List Int).getD (([0, 1, 2, 3, 4, 5] : List Int).length / 2) 0
      = ([0, 1, 2, 3, 4, 5] : List Int).getD
          (([0, 1, 2, 3, 4, 5] : List Int).length / 2 - 1) 0 + 1 :=
  addBreaks_break_at_upper_middle [⟨0, [], [], [0, 1, 2, 3, 4, 5]⟩]
    ⟨0, [], [3], [0, 1, 2, 3, 4, 5]⟩ (by decide) [0, 1, 2, 3, 4, 5] (by decide)
    (by decide) (by decide)

/-- C10 counterexample: on an employee whose stored schedule violates the
data-model invariant (it is not strictly increasing), two distinct runs have
the same midpoint value and `addBreaks` records a duplicate break, so the
unconditional no-duplicates part of the claim fails. -/
theorem addBreaks_duplicate_breaks_cex :
    (addBreaks [⟨0, [], [], [0, 1, 2, 3, 4, 5, 0, 1, 2, 3, 4, 5]⟩]).map
        Employee.breaksTaken = [[3, 3]] ∧
    ¬ ([3, 3] : List Int).Nodup := by decide

/-- C10 amended: `addBreaks` discards previously stored breaks, so the
resulting break list is a function of the schedule alone; applying
`addBreaks` twice equals applying it once; and the break list has no
duplicates provided the employee's schedule is strictly increasing (the
documented schedule invariant). -/
theorem addBreaks_breaks_function_of_schedule (emps : List Employee)
    (e₁ e₂ : Employee) (hs : e₁.schedule = e₂.schedule)
    (hsorted : List.Pairwise (· < ·) e₁.schedule) :
    addBreaks (addBreaks emps) = addBreaks emps ∧
    (addBreaksEmp e₁).breaksTaken = (addBreaksEmp e₂).breaksTaken ∧
    (addBreaksEmp e₁).breaksTaken.Nodup := by
  refine ⟨?_, ?_, ?_⟩
  · rw [addBreaks, addBreaks, List.map_map]
    rfl
  · simp [addBreaksEmp, hs]
  · have hbt : (addBreaksEmp e₁).breaksTaken = breaksFor e₁.schedule := rfl
    rw [hbt, breaksFor_eq]
    have hflat : List.Pairwise (· < ·) (getShifts e₁.schedule).flatten := by
      rw [getShifts_flatten]; exact hsorted
    have hpw : List.Pairwise (fun r₁ r₂ => ∀ x ∈ r₁, ∀ y ∈ r₂, x < y)
        (getShifts e₁.schedule) := (List.pairwise_flatten.mp hflat).2
    have hpw2 := hpw.filter (fun r => 6 ≤ r.length)
    have hmap : List.Pairwise (· < ·)
        (((getShifts e₁.schedule).filter (fun r => 6 ≤ r.length)).map
          (fun r => r.getD (r.length / 2) 0)) := by
      rw [List.pairwise_map]
      refine pairwise_imp_mem (P := fun r : List Int => 6 ≤ r.length) hpw2 ?_ ?_
      · intro r hr
        have := (List.mem_filter.mp hr).2
        simpa using this
      · intro r₁ r₂ h1 h2 hcross
        exact hcross _ (mid_mem r₁ (by omega)) _ (mid_mem r₂ (by omega))
    exact hmap.imp (fun h => ne_of_lt h)

theorem addBreaks_breaks_function_of_schedule_witness :
    addBreaks (addBreaks [⟨5, [], [1], [2]⟩]) = addBreaks [⟨5, [], [1], [2]⟩] ∧
    (addBreaksEmp ⟨0, [], [7], [0, 1, 2, 3, 4, 5]⟩).breaksTaken
      = (addBreaksEmp ⟨1, ["x"], [9], [0, 1, 2, 3, 4, 5]⟩).breaksTaken ∧
    (addBreaksEmp ⟨0, [], [7], [0, 1, 2, 3, 4, 5]⟩).breaksTaken.Nodup :=
  addBreaks_breaks_function_of_schedule [⟨5, [], [1], [2]⟩]
    ⟨0, [], [7], [0, 1, 2, 3, 4, 5]⟩ ⟨1, ["x"], [9], [0, 1, 2, 3, 4, 5]⟩
    (by decide) (by decide)


theorem applyFallbackFrom_map (hd : Nat) :
    ∀ (emps : List Employee) (k : Nat),
      (applyFallbackFrom hd k emps).map Employee.schedule
        = (List.range' k emps.length).map (fallbackSchedule hd) := by
  intro emps
  induction emps with
  | nil => intro k; rfl
  | cons emp rest ih =>
    intro k
    rw [applyFallbackFrom, List.map_cons, ih (k + 1), List.length_cons,
      List.range'_succ, List.map_cons]

theorem extractAll_map (a : Nat → Nat → Bool) (hd : Nat) :
    ∀ (emps : List Employee) (k : Nat),
      (extractAll a hd k emps).map Employee.schedule
        = (List.range' k emps.length).map (extractSchedule a hd) := by
  intro emps
  induction emps with
  | nil => intro k; rfl
  | cons emp rest ih =>
    intro k
    rw [extractAll, List.map_cons, ih (k + 1), List.length_cons,
      List.range'_succ, List.map_cons]

theorem extractUpTo_length (a : Nat → Nat → Bool) (hd k : Nat) :
    ∀ (emps : List Employee) (e : Nat), (extractUpTo a hd k e emps).length = emps.length := by
  intro emps
  induction emps with
  | nil => intro e; rfl
  | cons emp rest ih =>
    intro e
    rw [extractUpTo, List.length_cons, List.length_cons, ih (e + 1)]

/-- C4: `generateSchedule` never leaves a mixed result — either the whole
employee list receives the schedules extracted from the backend's optimal
assignment, or the whole list receives the fallback heuristic's output for
each employee index; every failure or exception outcome of the backend
(including an exception thrown mid-extraction) ends in the fallback being
applied to the entire employee set, and the function, being total, returns
without raising. -/
theorem generateSchedule_no_partial_adoption (result : BackendResult)
    (hd : Nat) (emps : List Employee) :
    (∃ a, result = BackendResult.success a ∧
      (generateSchedule result hd emps).map Employee.schedule
        = (List.range emps.length).map (extractSchedule a hd)) ∨
    (generateSchedule result hd emps).map Employee.schedule
      = (List.range emps.length).map (fallbackSchedule hd) := by
  cases result with
  | success a =>
    exact Or.inl ⟨a, rfl, by
      rw [generateSchedule, extractAll_map a hd emps 0, List.range_eq_range']⟩
  | failure =>
    exact Or.inr (by
      rw [generateSchedule, applyFallback, applyFallbackFrom_map hd emps 0,
        List.range_eq_range'])
  | raisedBefore =>
    exact Or.inr (by
      rw [generateSchedule, applyFallback, applyFallbackFrom_map hd emps 0,
        List.range_eq_range'])
  | raisedDuring a k =>
    exact Or.inr (by
      rw [generateSchedule, applyFallback, applyFallbackFrom_map hd _ 0,
        extractUpTo_length a hd k emps 0, List.range_eq_range'])


theorem fallbackShifts_cases (e : Nat) :
    fallbackShifts.getD (e % fallbackShifts.length) (0, 0) = (0, 8) ∨
    fallbackShifts.getD (e % fallbackShifts.length) (0, 0) = (8, 16) ∨
    fallbackShifts.getD (e % fallbackShifts.length) (0, 0) = (16, 24) := by
  have h3 : fallbackShifts.length = 3 := rfl
  have he : e % 3 = 0 ∨ e % 3 = 1 ∨ e % 3 = 2 := by omega
  rw [h3]
  rcases he with h | h | h <;> rw [h] <;> simp [fallbackShifts]

theorem fallbackSchedule_eq (hd e : Nat) :
    ∃ s t, s ≤ t ∧ t ≤ 24 ∧ t - s = 8 ∧
      fallbackSchedule hd e = (List.range hd).flatMap (fbBody s t) := by
  rcases fallbackShifts_cases e with h | h | h
  · exact ⟨0, 8, by omega, by omega, by omega, by unfold fallbackSchedule fbBody; rw [h]⟩
  · exact ⟨8, 16, by omega, by omega, by omega, by unfold fallbackSchedule fbBody; rw [h]⟩
  · exact ⟨16, 24, by omega, by omega, by omega, by unfold fallbackSchedule fbBody; rw [h]⟩

theorem mem_fbGeneric (hd s t : Nat) (hst : s ≤ t) (x : Int) :
    x ∈ (List.range hd).flatMap (fbBody s t) ↔
      ∃ day, day < hd ∧ day % 2 = 0 ∧
        ∃ hh, s ≤ hh ∧ hh < t ∧ x = ((day * 24 + hh : Nat) : Int) := by
  rw [List.mem_flatMap]
  constructor
  · rintro ⟨day, hday, hx⟩
    rw [List.mem_range] at hday
    rw [fbBody] at hx
    split at hx
    · obtain ⟨hh, hhh, rfl⟩ := List.mem_map.mp hx
      rw [List.mem_range'_1] at hhh
      exact ⟨day, hday, by assumption, hh, by omega, by omega, rfl⟩
    · simp at hx
  · rintro ⟨day, hday, heven, hh, hhs, hht, rfl⟩
    refine ⟨day, List.mem_range.mpr hday, ?_⟩
    rw [fbBody, if_pos heven]
    exact List.mem_map.mpr ⟨hh, List.mem_range'_1.mpr (by omega), rfl⟩

theorem pairwise_fbGeneric (s t : Nat) (hst : s ≤ t) (ht : t ≤ 24) :
    ∀ hd, List.Pairwise (· < ·) ((List.range hd).flatMap (fbBody s t)) := by
  intro hd
  induction hd with
  | zero => simp
  | succ n ih =>
    rw [List.range_succ, List.flatMap_append]
    refine List.pairwise_append.mpr ⟨ih, ?_, ?_⟩
    · simp only [List.flatMap_cons, List.flatMap_nil, List.append_nil]
      rw [fbBody]
      split
      · rw [List.pairwise_map, List.range'_eq_map_range, List.pairwise_map]
        exact List.Pairwise.imp
          (fun hab => Int.ofNat_lt.mpr (by omega)) (List.pairwise_lt_range _)
      · simp
    · intro x hx y hy
      simp only [List.flatMap_cons, List.flatMap_nil, List.append_nil] at hy
      obtain ⟨day, hday, -, hh, -, hht, rfl⟩ :=
        (mem_fbGeneric n s t hst x).mp hx
      rw [fbBody] at hy
      split at hy
      · obtain ⟨hh2, hhh2, rfl⟩ := List.mem_map.mp hy
        rw [List.mem_range'_1] at hhh2
        exact Int.ofNat_lt.mpr (by omega)
      · simp at hy

theorem bound_fbGeneric (hd s t : Nat) (hst : s ≤ t) (ht : t ≤ 24) :
    ∀ x ∈ (List.range hd).flatMap (fbBody s t), 0 ≤ x ∧ x < (hd : Int) * 24 := by
  intro x hx
  obtain ⟨day, hday, -, hh, -, hht, rfl⟩ := (mem_fbGeneric hd s t hst x).mp hx
  constructor
  · omega
  · have h1 : day * 24 + hh < hd * 24 := by omega
    omega

/-- C5: the fallback scheduler is a pure, deterministic function of the
employee index and the horizon: two invocations on employee lists of the
same length produce identical schedules position by position, regardless of
any prior state of the employees, and each position's schedule is
`fallbackSchedule horizonDays index`. -/
theorem fallback_deterministic (hd : Nat) (emps₁ emps₂ : List Employee)
    (hlen : emps₁.length = emps₂.length) :
    (applyFallback hd emps₁).map Employee.schedule
      = (applyFallback hd emps₂).map Employee.schedule ∧
    (applyFallback hd emps₁).map Employee.schedule
      = (List.range emps₁.length).map (fallbackSchedule hd) := by
  constructor
  · rw [applyFallback, applyFallback, applyFallbackFrom_map hd emps₁ 0,
      applyFallbackFrom_map hd emps₂ 0, hlen]
  · rw [applyFallback, applyFallbackFrom_map hd emps₁ 0, List.range_eq_range']

theorem fallback_deterministic_witness :
    (applyFallback 1 [(⟨0, [], [], []⟩ : Employee)]).map Employee.schedule
      = (applyFallback 1 [(⟨7, ["q"], [1], [5]⟩ : Employee)]).map Employee.schedule ∧
    (applyFallback 1 [(⟨0, [], [], []⟩ : Employee)]).map Employee.schedule
      = (List.range ([(⟨0, [], [], []⟩ : Employee)] : List Employee).length).map
          (fallbackSchedule 1) :=
  fallback_deterministic 1 [⟨0, [], [], []⟩] [⟨7, ["q"], [1], [5]⟩] (by decide)

theorem dailyCount_append (l₁ l₂ : List Int) (d : Nat) :
    dailyCount (l₁ ++ l₂) d = dailyCount l₁ d + dailyCount l₂ d := by
  rw [dailyCount, dailyCount, dailyCount, List.filter_append, List.length_append]

theorem dailyCount_fbBody_le (s t : Nat) (hlen : t - s ≤ 8) (day d : Nat) :
    dailyCount (fbBody s t day) d ≤ 8 := by
  calc dailyCount (fbBody s t day) d ≤ (fbBody s t day).length :=
        List.length_filter_le _ _
    _ ≤ 8 := by
        rw [fbBody]
        split
        · rw [List.length_map, List.length_range']
          exact hlen
        · simp

theorem dailyCount_fbBody_ne (s t : Nat) (ht : t ≤ 24) (day d : Nat)
    (hne : day ≠ d) : dailyCount (fbBody s t day) d = 0 := by
  rw [dailyCount, List.length_eq_zero, List.filter_eq_nil_iff]
  intro x hx
  rw [fbBody] at hx
  split at hx
  · obtain ⟨hh, hhh, rfl⟩ := List.mem_map.mp hx
    rw [List.mem_range'_1] at hhh
    simp only [decide_eq_true_eq]
    rintro ⟨h1, h2⟩
    omega
  · simp at hx

theorem dailyCount_fbGeneric (s t : Nat) (ht : t ≤ 24) (hlen : t - s ≤ 8)
    (d : Nat) :
    ∀ hd, dailyCount ((List.range hd).flatMap (fbBody s t)) d ≤ 8 ∧
      (hd ≤ d → dailyCount ((List.range hd).flatMap (fbBody s t)) d = 0) := by
  intro hd
  induction hd with
  | zero => simp [dailyCount]
  | succ n ih =>
    rw [List.range_succ, List.flatMap_append]
    have hone : ([n] : List Nat).flatMap (fbBody s t) = fbBody s t n := by
      simp [List.flatMap_cons]
    rw [dailyCount_append, hone]
    constructor
    · by_cases hnd : n = d
      · have h0 := ih.2 (by omega)
        have hb := dailyCount_fbBody_le s t hlen n d
        omega
      · have h1 := ih.1
        have hb := dailyCount_fbBody_ne s t ht n d hnd
        omega
    · intro hle
      have h1 := ih.2 (by omega)
      have h2 := dailyCount_fbBody_ne s t ht n d (by omega)
      omega

theorem mem_applyFallbackFrom (hd : Nat) :
    ∀ (emps : List Employee) (k : Nat), ∀ emp ∈ applyFallbackFrom hd k emps,
      ∃ e, emp.schedule = fallbackSchedule hd e := by
  intro emps
  induction emps with
  | nil => intro k emp hemp; simp [applyFallbackFrom] at hemp
  | cons e0 rest ih =>
    intro k emp hemp
    rw [applyFallbackFrom] at hemp
    rcases List.mem_cons.mp hemp with h | h
    · exact ⟨k, by rw [h]⟩
    · exact ih (k + 1) emp h

theorem mem_extractAll (a : Nat → Nat → Bool) (hd : Nat) :
    ∀ (emps : List Employee) (k : Nat), ∀ emp ∈ extractAll a hd k emps,
      ∃ i, i < emps.length ∧ emp.schedule = extractSchedule a hd (k + i) := by
  intro emps
  induction emps with
  | nil => intro k emp hemp; simp [extractAll] at hemp
  | cons e0 rest ih =>
    intro k emp hemp
    rw [extractAll] at hemp
    rcases List.mem_cons.mp hemp with h | h
    · exact ⟨0, by simp, by simp [h]⟩
    · obtain ⟨i, hi, hsched⟩ := ih (k + 1) emp h
      exact ⟨i + 1, by simp; omega, by rw [hsched]; congr 1; omega⟩

theorem extractSchedule_sorted (a : Nat → Nat → Bool) (hd e : Nat) :
    List.Pairwise (· < ·) (extractSchedule a hd e) := by
  rw [extractSchedule, List.pairwise_map]
  exact List.Pairwise.imp (fun h => Int.ofNat_lt.mpr h)
    ((List.pairwise_lt_range _).filter _)

theorem extractSchedule_bound (a : Nat → Nat → Bool) (hd e : Nat) :
    ∀ x ∈ extractSchedule a hd e, 0 ≤ x ∧ x < (hd : Int) * 24 := by
  intro x hx
  rw [extractSchedule] at hx
  obtain ⟨p, hp, rfl⟩ := List.mem_map.mp hx
  have hlt := List.mem_range.mp (List.mem_filter.mp hp).1
  exact ⟨by omega, by omega⟩

theorem fallbackSchedule_sorted (hd e : Nat) :
    List.Pairwise (· < ·) (fallbackSchedule hd e) := by
  obtain ⟨s, t, hst, ht, -, heq⟩ := fallbackSchedule_eq hd e
  rw [heq]
  exact pairwise_fbGeneric s t hst ht hd

theorem fallbackSchedule_bound (hd e : Nat) :
    ∀ x ∈ fallbackSchedule hd e, 0 ≤ x ∧ x < (hd : Int) * 24 := by
  obtain ⟨s, t, hst, ht, -, heq⟩ := fallbackSchedule_eq hd e
  rw [heq]
  exact bound_fbGeneric hd s t hst ht

/-- C6: after `generateSchedule`, on the backend-extraction path and on the
fallback path alike, every employee's schedule is strictly increasing and
every entry lies in `[0, horizonDays * 24)`. -/
theorem generateSchedule_sorted_bounded (result : BackendResult) (hd : Nat)
    (emps : List Employee) :
    ∀ emp ∈ generateSchedule result hd emps,
      List.Pairwise (· < ·) emp.schedule ∧
      ∀ x ∈ emp.schedule, 0 ≤ x ∧ x < (hd : Int) * 24 := by
  intro emp hemp
  have key : (∃ a e, emp.schedule = extractSchedule a hd e) ∨
      (∃ e, emp.schedule = fallbackSchedule hd e) := by
    cases result with
    | success a =>
      obtain ⟨i, -, hsched⟩ := mem_extractAll a hd emps 0 emp hemp
      exact Or.inl ⟨a, 0 + i, hsched⟩
    | failure => exact Or.inr (mem_applyFallbackFrom hd emps 0 emp hemp)
    | raisedBefore => exact Or.inr (mem_applyFallbackFrom hd emps 0 emp hemp)
    | raisedDuring a k =>
      exact Or.inr (mem_applyFallbackFrom hd (extractUpTo a hd k 0 emps) 0 emp hemp)
  rcases key with ⟨a, e, hsched⟩ | ⟨e, hsched⟩
  · rw [hsched]
    exact ⟨extractSchedule_sorted a hd e, extractSchedule_bound a hd e⟩
  · rw [hsched]
    exact ⟨fallbackSchedule_sorted hd e, fallbackSchedule_bound hd e⟩

theorem generateSchedule_sorted_bounded_witness :
    List.Pairwise (· < ·)
      (Employee.schedule ⟨0, [], [], [0, 1, 2, 3, 4, 5, 6, 7]⟩) ∧
    ∀ x ∈ Employee.schedule ⟨0, [], [], [0, 1, 2, 3, 4, 5, 6, 7]⟩,
      0 ≤ x ∧ x < ((1 : Nat) : Int) * 24 :=
  generateSchedule_sorted_bounded BackendResult.failure 1 [⟨0, [], [], []⟩]
    ⟨0, [], [], [0, 1, 2, 3, 4, 5, 6, 7]⟩ (by decide)

theorem contiguous_head_add_mem (r : List Int) (hc : Contiguous r)
    (i : Nat) (hi : i < r.length) : r.headD 0 + i ∈ r := by
  have h := contiguous_getD r hc i hi
  rw [← h, List.getD_eq_getElem r 0 hi]
  exact List.getElem_mem hi

theorem fbGeneric_runs_le (hd s t : Nat) (hst : s ≤ t) (ht : t ≤ 24)
    (hlen : t - s ≤ 8) :
    ∀ r ∈ getShifts ((List.range hd).flatMap (fbBody s t)), r.length ≤ 8 := by
  intro r hr
  by_contra hgt
  push_neg at hgt
  have hc := getShifts_contiguous _ r hr
  have hsub : ∀ x ∈ r, x ∈ (List.range hd).flatMap (fbBody s t) := by
    intro x hx
    rw [← getShifts_flatten ((List.range hd).flatMap (fbBody s t))]
    exact List.mem_flatten.mpr ⟨r, hr, hx⟩
  have hmod : ∀ i : Nat, i ≤ 8 →
      (s : Int) ≤ (r.headD 0 + i) % 24 ∧ (r.headD 0 + i) % 24 < t := by
    intro i hi
    have hmem := hsub _ (contiguous_head_add_mem r hc i (by omega))
    obtain ⟨day, -, -, hh, hhs, hht, heq⟩ :=
      (mem_fbGeneric hd s t hst _).mp hmem
    rw [heq]
    constructor
    · omega
    · omega
  have h0 := hmod 0 (by omega)
  have h1 := hmod 1 (by omega)
  have h2 := hmod 2 (by omega)
  have h3 := hmod 3 (by omega)
  have h4 := hmod 4 (by omega)
  have h5 := hmod 5 (by omega)
  have h6 := hmod 6 (by omega)
  have h7 := hmod 7 (by omega)
  have h8 := hmod 8 (by omega)
  omega

theorem extract_dailyCount (a : Nat → Nat → Bool) (hd e d : Nat)
    (hcap : dailyHoursRule a e d) (hdlt : d < hd) :
    dailyCount (extractSchedule a hd e) d ≤ 8 := by
  rw [dailyCount, extractSchedule, List.filter_map, List.length_map,
    List.filter_filter]
  have hsplit : List.range (24 * hd)
      = (List.range' 0 (d * 24) ++ List.range' (d * 24) 24)
          ++ List.range' (d * 24 + 24) (24 * hd - (d * 24 + 24)) := by
    rw [List.range_eq_range']
    have e1 : List.range' 0 (d * 24) ++ List.range' (d * 24) 24
        = List.range' 0 (d * 24 + 24) := by
      have h := List.range'_append 0 (d * 24) 24 1
      simp only [Nat.one_mul, Nat.zero_add] at h
      rw [h, Nat.add_comm]
    rw [e1]
    have h2 := List.range'_append 0 (d * 24 + 24) (24 * hd - (d * 24 + 24)) 1
    simp only [Nat.one_mul, Nat.zero_add] at h2
    rw [h2]
    congr 1
    omega
  rw [hsplit, List.filter_append, List.filter_append, List.length_append,
    List.length_append]
  simp only [Function.comp_apply]
  have z1 : (List.range' 0 (d * 24)).filter
      (fun x : Nat => decide ((d : Int) * 24 ≤ (x : Int) ∧
        (x : Int) < ((d : Int) + 1) * 24) && a e x) = [] := by
    rw [List.filter_eq_nil_iff]
    intro p hp
    rw [List.mem_range'_1] at hp
    simp only [Bool.and_eq_true, decide_eq_true_eq]
    rintro ⟨⟨hl, -⟩, -⟩
    omega
  have z3 : (List.range' (d * 24 + 24) (24 * hd - (d * 24 + 24))).filter
      (fun x : Nat => decide ((d : Int) * 24 ≤ (x : Int) ∧
        (x : Int) < ((d : Int) + 1) * 24) && a e x) = [] := by
    rw [List.filter_eq_nil_iff]
    intro p hp
    rw [List.mem_range'_1] at hp
    simp only [Bool.and_eq_true, decide_eq_true_eq]
    rintro ⟨⟨-, hu⟩, -⟩
    omega
  rw [z1, z3]
  simp only [List.length_nil, Nat.zero_add, Nat.add_zero]
  calc ((List.range' (d * 24) 24).filter
      (fun x : Nat => decide ((d : Int) * 24 ≤ (x : Int) ∧
        (x : Int) < ((d : Int) + 1) * 24) && a e x)).length
      ≤ ((List.range' (d * 24) 24).filter (fun p => a e p)).length := by
        rw [← List.filter_filter]
        exact (List.filter_sublist _).length_le
    _ ≤ 8 := hcap

theorem fallbackSchedule_dailyCount (hd e d : Nat) :
    dailyCount (fallbackSchedule hd e) d ≤ 8 := by
  obtain ⟨s, t, hst, ht, hlen8, heq⟩ := fallbackSchedule_eq hd e
  rw [heq]
  exact (dailyCount_fbGeneric s t ht (by omega) d hd).1

theorem fallbackSchedule_runs_le (hd e : Nat) :
    ∀ r ∈ getShifts (fallbackSchedule hd e), r.length ≤ 8 := by
  obtain ⟨s, t, hst, ht, hlen8, heq⟩ := fallbackSchedule_eq hd e
  rw [heq]
  exact fbGeneric_runs_le hd s t hst ht (by omega)

/-- C7: after `generateSchedule`, every employee's schedule contains at most
8 periods in every day of the horizon; on the backend path this relies on
the assignment satisfying the formulated `daily_hours_rule` constraint (an
optimal solution is feasible), and on the fallback path it holds outright;
the fallback path additionally bounds every contiguous run by 8 periods. -/
theorem generateSchedule_daily_cap (result : BackendResult) (hd : Nat)
    (emps : List Employee)
    (hcap : ∀ a, result = BackendResult.success a →
      ∀ e, e < emps.length → ∀ d, d < hd → dailyHoursRule a e d) :
    ∀ emp ∈ generateSchedule result hd emps,
      (∀ d, d < hd → dailyCount emp.schedule d ≤ 8) ∧
      ((∀ a, result ≠ BackendResult.success a) →
        ∀ r ∈ getShifts emp.schedule, r.length ≤ 8) := by
  intro emp hemp
  cases result with
  | success a =>
    obtain ⟨i, hi, hsched⟩ := mem_extractAll a hd emps 0 emp hemp
    rw [hsched]
    constructor
    · intro d hdlt
      exact extract_dailyCount a hd (0 + i) d
        (hcap a rfl (0 + i) (by omega) d hdlt) hdlt
    · intro hne
      exact absurd rfl (hne a)
  | failure =>
    obtain ⟨e, hsched⟩ := mem_applyFallbackFrom hd emps 0 emp hemp
    rw [hsched]
    exact ⟨fun d _ => fallbackSchedule_dailyCount hd e d,
      fun _ => fallbackSchedule_runs_le hd e⟩
  | raisedBefore =>
    obtain ⟨e, hsched⟩ := mem_applyFallbackFrom hd emps 0 emp hemp
    rw [hsched]
    exact ⟨fun d _ => fallbackSchedule_dailyCount hd e d,
      fun _ => fallbackSchedule_runs_le hd e⟩
  | raisedDuring a k =>
    obtain ⟨e, hsched⟩ :=
      mem_applyFallbackFrom hd (extractUpTo a hd k 0 emps) 0 emp hemp
    rw [hsched]
    exact ⟨fun d _ => fallbackSchedule_dailyCount hd e d,
      fun _ => fallbackSchedule_runs_le hd e⟩

theorem generateSchedule_daily_cap_witness :
    (∀ d, d < 1 →
      dailyCount (Employee.schedule ⟨0, [], [], [0, 1, 2, 3, 4, 5, 6, 7]⟩) d ≤ 8) ∧
    ((∀ a, BackendResult.failure ≠ BackendResult.success a) →
      ∀ r ∈ getShifts (Employee.schedule ⟨0, [], [], [0, 1, 2, 3, 4, 5, 6, 7]⟩),
        r.length ≤ 8) :=
  generateSchedule_daily_cap BackendResult.failure 1 [⟨0, [], [], []⟩]
    (by intro a h; cases h) ⟨0, [], [], [0, 1, 2, 3, 4, 5, 6, 7]⟩ (by decide)


/-- C8: with 4 employees, a 7-day horizon and the backend unavailable:
employee 0 works hours-of-day `[0,8)`, employee 1 `[8,16)`, employee 2
`[16,24)`, employee 3 `[0,8)` (index 3 mod 3 = 0); every employee works only
on days 0, 2, 4 and 6; employee 0's schedule has exactly 32 entries; every
daily run has length 8, so each run contributes exactly one break at offset
4 within the run, which for employees 0 and 3 is period `day * 24 + 4`. -/
theorem fallback_scenario_four_employees :
    ((scenarioOutcome.getD 0 default).schedule.all
      (fun x => 0 ≤ x % 24 && x % 24 < 8)) = true ∧
    ((scenarioOutcome.getD 1 default).schedule.all
      (fun x => 8 ≤ x % 24 && x % 24 < 16)) = true ∧
    ((scenarioOutcome.getD 2 default).schedule.all
      (fun x => 16 ≤ x % 24 && x % 24 < 24)) = true ∧
    ((scenarioOutcome.getD 3 default).schedule.all
      (fun x => 0 ≤ x % 24 && x % 24 < 8)) = true ∧
    (scenarioOutcome.getD 3 default).schedule
      = (scenarioOutcome.getD 0 default).schedule ∧
    (∀ emp ∈ scenarioOutcome, emp.schedule.all
      (fun x => x / 24 == 0 || x / 24 == 2 || x / 24 == 4 || x / 24 == 6) = true) ∧
    (scenarioOutcome.getD 0 default).schedule.length = 32 ∧
    (∀ emp ∈ scenarioOutcome, (getShifts emp.schedule).all
      (fun r => r.length == 8) = true) ∧
    (∀ emp ∈ scenarioOutcome,
      emp.breaksTaken = (getShifts emp.schedule).map (fun r => r.getD 4 0)) ∧
    (scenarioOutcome.getD 0 default).breaksTaken
      = [0 * 24 + 4, 2 * 24 + 4, 4 * 24 + 4, 6 * 24 + 4] ∧
    (scenarioOutcome.getD 3 default).breaksTaken
      = [0 * 24 + 4, 2 * 24 + 4, 4 * 24 + 4, 6 * 24 + 4] := by
  decide
